import Mathlib

/-!
Verification of the `web_server` repository (Rust) against its specification.

The Rust code is shallowly embedded: Rust `&str`/`String` values become
`List Char` (`RStr`), fallible functions return an `Outcome` that separates
an `Ok` value, an `Err` value and a panic (Rust process abort), and the
stateful worker-pool / server lifecycle code becomes explicit state passing.
Every definition is translated from the source under `src/`; the only
exception is the serializer `to_http`, whose trait is declared in
`src/http/mod.rs` but implemented nowhere in the repository, and which is
therefore modelled from the specification's wire-syntax section.
-/

set_option maxRecDepth 10000

/-- Rust strings are modelled as lists of characters. -/
abbrev RStr := List Char

/-- Embed a Lean string literal into the model. -/
def toRStr (s : String) : RStr := s.data

/-- The quote character `"`, written by code point to keep literals simple. -/
def quoteChar : Char := '\x22'

/-- Model of Rust `char::is_whitespace` (the Unicode White_Space property). -/
def isRustWhitespace (c : Char) : Bool :=
  (9 ≤ c.toNat && c.toNat ≤ 13) || c.toNat = 32 || c.toNat = 133 || c.toNat = 160 ||
  c.toNat = 0x1680 || (0x2000 ≤ c.toNat && c.toNat ≤ 0x200A) || c.toNat = 0x2028 ||
  c.toNat = 0x2029 || c.toNat = 0x202F || c.toNat = 0x205F || c.toNat = 0x3000

/-- Model of Rust `str::trim_start`. -/
def rustTrimLeft (s : RStr) : RStr := s.dropWhile isRustWhitespace

/-- Model of Rust `str::trim_end`. -/
def rustTrimRight (s : RStr) : RStr := (s.reverse.dropWhile isRustWhitespace).reverse

/-- Model of Rust `str::trim`. -/
def rustTrim (s : RStr) : RStr := rustTrimRight (rustTrimLeft s)

/-- Model of Rust `char::to_uppercase` restricted to the ASCII letters, the
only characters whose case matters for this code base (the method table is
`["GET"]` and protocol versions are ASCII). -/
def toUpperChar (c : Char) : Char :=
  if 97 ≤ c.toNat ∧ c.toNat ≤ 122 then Char.ofNat (c.toNat - 32) else c

/-- Model of Rust `str::to_uppercase` (ASCII fragment, see `toUpperChar`). -/
def toUpperStr (s : RStr) : RStr := s.map toUpperChar

/-- ASCII decimal digit test, matching Rust `char::is_ascii_digit`. -/
def isDigitChar (c : Char) : Bool := 48 ≤ c.toNat && c.toNat ≤ 57

/-- Model of Rust `str::parse::<u32>`: an optional leading `+`, then one or
more ASCII digits, with the value required to fit in 32 bits. -/
def parseU32 (s : RStr) : Option Nat :=
  let ds : RStr := if s.head? = some '+' then s.tail else s
  if ds ≠ [] ∧ ds.all isDigitChar then
    let n := ds.foldl (fun a c => a * 10 + (c.toNat - 48)) 0
    if n < 4294967296 then some n else none
  else none

/-- Model of Rust `str::split` with a single-character pattern; like Rust's,
it always returns at least one (possibly empty) piece. -/
def splitChar (sep : Char) : RStr → List RStr
  | [] => [[]]
  | c :: rest =>
    if c = sep then [] :: splitChar sep rest
    else
      match splitChar sep rest with
      | [] => [[c]]
      | l :: ls => (c :: l) :: ls

/-- Model of Rust `str::split("\r\n")`: split on the leftmost occurrences of
the two-character line separator. -/
def splitCRLF : RStr → List RStr
  | [] => [[]]
  | [c] => [[c]]
  | c1 :: c2 :: rest =>
    if c1 = '\r' ∧ c2 = '\n' then [] :: splitCRLF rest
    else
      match splitCRLF (c2 :: rest) with
      | [] => [[c1]]
      | l :: ls => (c1 :: l) :: ls

/-- Whether a string contains the two-character sequence `\r\n`. -/
def hasCRLF : RStr → Bool
  | [] => false
  | [_] => false
  | c1 :: c2 :: rest => (c1 = '\r' && c2 = '\n') || hasCRLF (c2 :: rest)

/-- Rejoin a non-empty list of lines with `\r\n`, exactly as the body fold in
`MessageHTTP::from` does (the empty list gives the empty string). -/
def joinCRLF : List RStr → RStr
  | [] => []
  | l :: ls => ls.foldl (fun res s => res ++ '\r' :: '\n' :: s) l

/-- The registered method table `HTTP_METHOD` from `src/http/mod.rs`. -/
def HTTP_METHOD : List RStr := [toRStr "GET"]

/-- The distinct parse-error results of the parsing code, one constructor per
`Err(format!(...))` site, each carrying the interpolated fragment. -/
inductive ParseError where
  /-- "Bad code for Status line, not an unsigned integer: `{tok}`" -/
  | invalidStatusCode (tok : RStr)
  /-- "Bad Header Field: `{line}`" -/
  | malformedHeader (line : RStr)
  /-- "Bad Message string, no Start line: `{msg}`" -/
  | noStartLine (msg : RStr)
  /-- "Bad bytes for utf8 encoded message." -/
  | invalidEncoding
deriving DecidableEq, Repr

/-- Result of running a fallible Rust function: `Ok`, `Err`, or a panic that
aborts the program. -/
inductive Outcome (α : Type) where
  | ok (a : α)
  | err (e : ParseError)
  | panicked
deriving DecidableEq, Repr

/-- `StartLine` from `src/http/start_line.rs`. -/
inductive StartLine where
  | requestLine (method : RStr) (target : RStr) (version : RStr)
  | statusLine (version : RStr) (code : Nat) (reason : Option RStr)
deriving DecidableEq, Repr

/-- The token list used by `StartLine::from` (source lines 42-54): trim the
line, split it on quote characters, keep that split when it has exactly three
parts, and otherwise split the trimmed line on spaces. -/
def startTokens (msg : RStr) : List RStr :=
  if (splitChar quoteChar (rustTrim msg)).length = 3 then splitChar quoteChar (rustTrim msg)
  else splitChar ' ' (rustTrim msg)

/-- `StartLine::from` (source lines 40-128).  The `parts[1]` / `parts[2]`
indexing of the source panics when the token list is too short, which the
embedding records as `Outcome.panicked`. -/
def StartLine.fromStr (msg : RStr) : Outcome StartLine :=
  match startTokens msg with
  | [] => .panicked
  | p0 :: rest =>
    if toUpperStr (rustTrim p0) ∈ HTTP_METHOD then
      match rest with
      | p1 :: p2 :: _ =>
        .ok (.requestLine (toUpperStr (rustTrim p0)) (rustTrim p1) (toUpperStr (rustTrim p2)))
      | _ => .panicked
    else
      match rest with
      | p1 :: rest2 =>
        match parseU32 (rustTrim p1) with
        | some code =>
          if rustTrim (rest2.foldl (fun res s => res ++ ' ' :: s) []) = [] then
            .ok (.statusLine (toUpperStr (rustTrim p0)) code none)
          else
            .ok (.statusLine (toUpperStr (rustTrim p0)) code
              (some (rustTrim (rest2.foldl (fun res s => res ++ ' ' :: s) []))))
        | none => .err (.invalidStatusCode p1)
      | [] => .panicked

/-- `HeaderField` from `src/http/header_field.rs`. -/
structure HeaderField where
  name : RStr
  value : RStr
deriving DecidableEq, Repr

/-- `HeaderField::from` (source lines 25-53): split on `:`; the name is the
trimmed first part, the value is the remaining parts rejoined with `:` and
trimmed; fewer than two parts is the malformed-header error. -/
def HeaderField.fromStr (msg : RStr) : Outcome HeaderField :=
  match splitChar ':' msg with
  | p0 :: p1 :: rest =>
    .ok ⟨rustTrim p0, rustTrim (rest.foldl (fun res s => res ++ ':' :: s) p1)⟩
  | _ => .err (.malformedHeader msg)

/-- The header-reading loop of `MessageHTTP::from` (source lines 56-74): parse
each line with `HeaderField::from`, returning the first error. -/
def parseHeaders : List RStr → Outcome (List HeaderField)
  | [] => .ok []
  | l :: ls =>
    match HeaderField.fromStr l with
    | .ok hf =>
      match parseHeaders ls with
      | .ok hfs => .ok (hf :: hfs)
      | .err e => .err e
      | .panicked => .panicked
    | .err e => .err e
    | .panicked => .panicked

/-- `MessageHTTP` from `src/http/message.rs`.  `message_body` holds the body
string; the Rust `Vec<u8>` is its UTF-8 encoding, so equality of the strings
coincides with equality of the byte vectors. -/
structure MessageHTTP where
  start_line : StartLine
  header_fields : List HeaderField
  message_body : RStr
deriving DecidableEq, Repr

/-- `MessageHTTP::from` (source lines 40-103): split on `\r\n`; the first line
is the start line (the no-line branch of the source is kept even though the
split never returns an empty list); following lines up to the first empty line
are header fields; the body is the remaining lines rejoined with `\r\n`,
except that it is empty when the first remaining line is empty. -/
def MessageHTTP.fromStr (msg : RStr) : Outcome MessageHTTP :=
  match splitCRLF msg with
  | [] => .err (.noStartLine msg)
  | first :: rest =>
    match StartLine.fromStr first with
    | .ok sl =>
      match parseHeaders (rest.takeWhile (· ≠ [])) with
      | .ok hfs =>
        .ok ⟨sl, hfs,
          match rest.drop (hfs.length + 1) with
          | [] => []
          | init :: more =>
            if init = [] then []
            else more.foldl (fun res s => res ++ '\r' :: '\n' :: s) init⟩
      | .err e => .err e
      | .panicked => .panicked
    | .err e => .err e
    | .panicked => .panicked

/-- Messages on the `WorkerPool` job channel (`src/server/threading.rs`):
either a job (identified by an opaque id, since jobs are opaque closures) or
the termination signal. -/
inductive PoolMsg where
  | job (id : Nat)
  | terminate
deriving DecidableEq, Repr

/-- Sequential-state model of `WorkerPool`: the worker threads are recorded by
their ids, the mpsc channel by the FIFO list of sent but not yet consumed
messages, and `receiver_attached` records whether the consuming end of the
channel still exists (a `send` fails exactly when it does not). -/
structure WorkerPool where
  workers : List Nat
  sender_chan : List PoolMsg
  receiver_attached : Bool
deriving DecidableEq, Repr

/-- One `Sender::send` on the job channel: appends to the queue and reports
success, or fails leaving the queue unchanged. -/
def WorkerPool.sendMsg (p : WorkerPool) (m : PoolMsg) : WorkerPool × Bool :=
  if p.receiver_attached then ({ p with sender_chan := p.sender_chan ++ [m] }, true)
  else (p, false)

/-- The loop body of `WorkerPool::shutdown` (source lines 75-82): one
`Terminate` send per worker, stopping early with an error if a send fails. -/
def shutdownLoop (ws : List Nat) (p : WorkerPool) : WorkerPool × Bool :=
  match ws with
  | [] => (p, true)
  | _ :: rest =>
    if (p.sendMsg .terminate).2 then shutdownLoop rest (p.sendMsg .terminate).1
    else ((p.sendMsg .terminate).1, false)

/-- `WorkerPool::shutdown`: iterate the send over `self.workers`. -/
def WorkerPool.shutdown (p : WorkerPool) : WorkerPool × Bool :=
  shutdownLoop p.workers p

/-- Result of `Server::join` (`src/server/server.rs` lines 57-60): the driver
thread's `Result`, or the panic raised by `unwrap` when the handle was already
taken by an earlier call. -/
inductive JoinOutcome where
  | ok
  | err
  | panicked
deriving DecidableEq, Repr

/-- How the driver thread terminated: normally, or by panicking (which
`thread::join` reports as an `Err`). -/
inductive DriverResult where
  | completed
  | panicked
deriving DecidableEq, Repr

/-- State model of `Server`: `server` holds the driver thread's join handle
(carrying how the driver terminated) until `join` takes it; `sender_attached`
stands for the control-channel `Sender` field, untouched by `join`. -/
structure Server where
  server : Option DriverResult
  sender_attached : Bool
deriving DecidableEq, Repr

/-- `Server::join`: `self.server.take().unwrap().join()` — remove the stored
handle, panic if it is absent, otherwise report the driver's result. -/
def Server.join (s : Server) : JoinOutcome × Server :=
  match s.server with
  | some .completed => (.ok, { s with server := none })
  | some .panicked => (.err, { s with server := none })
  | none => (.panicked, { s with server := none })

/-- The token list that C7's sentence of the specification describes: use the
quote split only when it has exactly three parts all of which are non-empty,
otherwise split on spaces. -/
def claimTokens (msg : RStr) : List RStr :=
  if (splitChar quoteChar (rustTrim msg)).length = 3 ∧
      (splitChar quoteChar (rustTrim msg)).all (· ≠ []) then
    splitChar quoteChar (rustTrim msg)
  else splitChar ' ' (rustTrim msg)

/-- The lines strictly after the first exactly-empty line (the empty list when
no empty line exists). -/
def linesAfterFirstEmpty (ls : List RStr) : List RStr :=
  (ls.dropWhile (· ≠ [])).tail

/-- The body C3's sentence of the specification describes: the lines strictly
after the first empty line, rejoined with `\r\n`. -/
def bodySpecClaim (ls : List RStr) : RStr :=
  joinCRLF (linesAfterFirstEmpty ls)

/-- The body the code actually produces, described over the line list: as
`bodySpecClaim`, except that everything is dropped when the first line after
the terminator is itself empty. -/
def bodySpecAmended (ls : List RStr) : RStr :=
  match linesAfterFirstEmpty ls with
  | [] => []
  | init :: more => if init = [] then [] else more.foldl (fun res s => res ++ '\r' :: '\n' :: s) init

/-- The character of the decimal digit `n % 10`. -/
def digitChar (n : Nat) : Char := Char.ofNat (48 + n % 10)

/-- Fuel-driven accumulator loop producing the decimal digits of `n` in front
of `acc`; `fuel > n` suffices for full evaluation. -/
def natDigitsAux : Nat → Nat → RStr → RStr
  | 0, _, acc => acc
  | fuel + 1, n, acc =>
    if n < 10 then digitChar n :: acc
    else natDigitsAux fuel (n / 10) (digitChar (n % 10) :: acc)

/-- The decimal representation of `n`, without sign or leading zeros. -/
def natDigits (n : Nat) : RStr := natDigitsAux (n + 1) n []

/-- Modelled from the spec: the repository declares `trait HTTP { to_http }`
in `src/http/mod.rs` but implements it for no type, so serialization of a
start line is modelled from the specification's wire syntax (§6): request
lines are `METHOD target version` with the target quoted when it contains a
space, status lines are `version code` or `version code reason`. -/
def startLineStr : StartLine → RStr
  | .requestLine m t v =>
    m ++ ' ' :: ((if ' ' ∈ t then quoteChar :: t ++ [quoteChar] else t) ++ ' ' :: v)
  | .statusLine v c r =>
    v ++ ' ' :: (natDigits c ++ (match r with | none => [] | some rs => ' ' :: rs))

/-- Modelled from the spec: serialization of one header field as
`name: value` (§3, §6). -/
def headerStr (h : HeaderField) : RStr := h.name ++ ':' :: ' ' :: h.value

/-- Modelled from the spec: serialization of a whole message (§6): the start
line, each header field, and an empty line, all terminated by `\r\n`, followed
by the body verbatim. -/
def MessageHTTP.to_http (m : MessageHTTP) : RStr :=
  startLineStr m.start_line ++ '\r' :: '\n' ::
    (m.header_fields.foldr (fun h acc => headerStr h ++ '\r' :: '\n' :: acc)
      ('\r' :: '\n' :: m.message_body))

/-- Well-formedness of a protocol-version token for the round-trip property:
non-empty, already trimmed, already upper-case, and free of spaces, quotes and
line separators. -/
def wfVersion (v : RStr) : Prop :=
  v ≠ [] ∧ rustTrim v = v ∧ toUpperStr v = v ∧ ' ' ∉ v ∧ quoteChar ∉ v ∧ hasCRLF v = false

/-- Well-formedness of a start line for the round-trip property. -/
def wfStartLine : StartLine → Prop
  | .requestLine m t v =>
    m ∈ HTTP_METHOD ∧ rustTrim t = t ∧ quoteChar ∉ t ∧ hasCRLF t = false ∧ wfVersion v
  | .statusLine v c r =>
    wfVersion v ∧ v ∉ HTTP_METHOD ∧ c < 4294967296 ∧
      match r with
      | none => True
      | some rs => rs ≠ [] ∧ rustTrim rs = rs ∧ quoteChar ∉ rs ∧ hasCRLF rs = false

/-- Well-formedness of a header field for the round-trip property: the name
contains no separator and both sides are already trimmed and single-line. -/
def wfHeader (h : HeaderField) : Prop :=
  ':' ∉ h.name ∧ rustTrim h.name = h.name ∧ hasCRLF h.name = false ∧
    rustTrim h.value = h.value ∧ hasCRLF h.value = false

/-- Well-formedness of a body for the round-trip property: empty, or with a
non-empty first line (the parser discards bodies whose first line is empty). -/
def wfBody (b : RStr) : Prop := b = [] ∨ (splitCRLF b).headD [] ≠ []

/-- Well-formedness of a message for the round-trip property.  Every message
produced by parsing a well-formed wire message satisfies it. -/
def wfMessage (m : MessageHTTP) : Prop :=
  wfStartLine m.start_line ∧ (∀ hf ∈ m.header_fields, wfHeader hf) ∧ wfBody m.message_body

instance (v : RStr) : Decidable (wfVersion v) :=
  inferInstanceAs (Decidable (_ ∧ _ ∧ _ ∧ _ ∧ _ ∧ _))

instance (sl : StartLine) : Decidable (wfStartLine sl) :=
  match sl with
  | .requestLine _ _ _ => inferInstanceAs (Decidable (_ ∧ _ ∧ _ ∧ _ ∧ _))
  | .statusLine _ _ r =>
    match r with
    | none => inferInstanceAs (Decidable (_ ∧ _ ∧ _ ∧ True))
    | some _ => inferInstanceAs (Decidable (_ ∧ _ ∧ _ ∧ (_ ∧ _ ∧ _ ∧ _)))

instance (h : HeaderField) : Decidable (wfHeader h) :=
  inferInstanceAs (Decidable (_ ∧ _ ∧ _ ∧ _ ∧ _))

instance (b : RStr) : Decidable (wfBody b) :=
  inferInstanceAs (Decidable (_ ∨ _))

instance (m : MessageHTTP) : Decidable (wfMessage m) :=
  inferInstanceAs (Decidable (_ ∧ _ ∧ _))

/-- Concatenate `sep :: piece` for every piece: the tail shape of a
`splitChar` decomposition. -/
def joinAux (sep : Char) (ls : List RStr) : RStr :=
  ls.foldr (fun s acc => sep :: s ++ acc) []

/-- Concatenate `\r\n ++ piece` for every piece: the tail shape of a
`splitCRLF` decomposition. -/
def crlfJoinAux (ls : List RStr) : RStr :=
  ls.foldr (fun s acc => '\r' :: '\n' :: s ++ acc) []

/-- The text strictly before the first occurrence of `sep`. -/
def beforeSep (sep : Char) (s : RStr) : RStr := s.takeWhile (· ≠ sep)

/-- The text strictly after the first occurrence of `sep` (everything after
it, later occurrences included). -/
def afterSep (sep : Char) (s : RStr) : RStr := (s.dropWhile (· ≠ sep)).tail

/-- Join a list of tokens with single spaces. -/
def spaceJoin : List RStr → RStr
  | [] => []
  | [l] => l
  | l :: ls => l ++ ' ' :: spaceJoin ls

/-- The reason C5's sentence of the specification describes: the remaining
tokens joined with single spaces, trimmed, the empty result meaning absence. -/
def reasonSpec (toks : List RStr) : Option RStr :=
  if rustTrim (spaceJoin toks) = [] then none
  else some (rustTrim (spaceJoin toks))
theorem splitChar_ne_nil (sep : Char) (s : RStr) : splitChar sep s ≠ [] := by
  induction s with
  | nil => simp [splitChar]
  | cons c t ih =>
    rw [splitChar]
    split_ifs
    · simp
    · cases h : splitChar sep t <;> simp

theorem joinAux_nil (sep : Char) : joinAux sep [] = [] := rfl

theorem joinAux_cons (sep : Char) (l : RStr) (ls : List RStr) :
    joinAux sep (l :: ls) = sep :: l ++ joinAux sep ls := rfl

theorem splitChar_of_not_mem (sep : Char) (s : RStr) (h : sep ∉ s) : splitChar sep s = [s] := by
  induction s with
  | nil => simp [splitChar]
  | cons c t ih =>
    rw [splitChar]
    have hc : ¬ c = sep := fun e => h (e ▸ List.mem_cons_self c t)
    rw [if_neg hc, ih (fun hm => h (List.mem_cons_of_mem _ hm))]

theorem splitChar_append (sep : Char) (a b : RStr) (h : sep ∉ a) :
    splitChar sep (a ++ sep :: b) = a :: splitChar sep b := by
  induction a with
  | nil => simp [splitChar]
  | cons c t ih =>
    rw [List.cons_append, splitChar]
    have hc : ¬ c = sep := fun e => h (e ▸ List.mem_cons_self c t)
    rw [if_neg hc, ih (fun hm => h (List.mem_cons_of_mem _ hm))]

theorem mem_splitChar_not_mem (sep : Char) (s : RStr) : ∀ p ∈ splitChar sep s, sep ∉ p := by
  induction s with
  | nil =>
    intro p hp
    simp [splitChar] at hp
    simp [hp]
  | cons c t ih =>
    intro p hp
    rw [splitChar] at hp
    by_cases hc : c = sep
    · rw [if_pos hc] at hp
      rcases List.mem_cons.mp hp with rfl | hp
      · simp
      · exact ih p hp
    · rw [if_neg hc] at hp
      cases hsp : splitChar sep t with
      | nil => exact absurd hsp (splitChar_ne_nil sep t)
      | cons l ls =>
        rw [hsp] at hp
        rcases List.mem_cons.mp hp with rfl | hp
        · intro hm
          rcases List.mem_cons.mp hm with e | hm
          · exact hc e.symm
          · exact ih l (hsp ▸ List.mem_cons_self l ls) hm
        · exact ih p (hsp ▸ List.mem_cons_of_mem l hp)

theorem length_splitChar (sep : Char) (s : RStr) :
    (splitChar sep s).length = s.count sep + 1 := by
  induction s with
  | nil => simp [splitChar]
  | cons c t ih =>
    rw [splitChar]
    by_cases hc : c = sep
    · rw [if_pos hc]
      subst hc
      simp [List.count_cons, ih]
    · rw [if_neg hc]
      cases hsp : splitChar sep t with
      | nil => exact absurd hsp (splitChar_ne_nil sep t)
      | cons l ls =>
        have h1 : (l :: ls).length = t.count sep + 1 := hsp ▸ ih
        have h2 : List.count sep (c :: t) = List.count sep t := by
          rw [List.count_cons]
          simp [Ne.symm hc, hc]
        simp only [List.length_cons] at h1 ⊢
        rw [h2]
        omega

theorem splitChar_reconstruct (sep : Char) (s : RStr) :
    ∀ h tl, splitChar sep s = h :: tl → s = h ++ joinAux sep tl := by
  induction s with
  | nil =>
    intro h tl e
    simp [splitChar] at e
    obtain ⟨rfl, rfl⟩ := e
    simp [joinAux]
  | cons c t ih =>
    intro h tl e
    rw [splitChar] at e
    by_cases hc : c = sep
    · rw [if_pos hc] at e
      cases hsp : splitChar sep t with
      | nil => exact absurd hsp (splitChar_ne_nil sep t)
      | cons l ls =>
        rw [hsp] at e
        injection e with e1 e2
        subst e1
        subst e2
        have ht := ih l ls hsp
        simp [joinAux_cons, hc, ht]
    · rw [if_neg hc] at e
      cases hsp : splitChar sep t with
      | nil => exact absurd hsp (splitChar_ne_nil sep t)
      | cons l ls =>
        rw [hsp] at e
        injection e with e1 e2
        subst e1
        subst e2
        have ht := ih l ls hsp
        simp [ht]

theorem foldl_joinAux (sep : Char) (ls : List RStr) (r : RStr) :
    ls.foldl (fun res s => res ++ sep :: s) r = r ++ joinAux sep ls := by
  induction ls generalizing r with
  | nil => simp [joinAux]
  | cons l ls ih => simp [joinAux_cons, ih]

theorem foldl_splitChar_nil (sep : Char) (s : RStr) :
    (splitChar sep s).foldl (fun res t => res ++ sep :: t) [] = sep :: s := by
  cases hsp : splitChar sep s with
  | nil => exact absurd hsp (splitChar_ne_nil sep s)
  | cons h tl =>
    rw [List.foldl_cons, foldl_joinAux]
    simp [splitChar_reconstruct sep s h tl hsp]

theorem beforeSep_append (sep : Char) (a b : RStr) (h : sep ∉ a) :
    beforeSep sep (a ++ sep :: b) = a := by
  induction a with
  | nil => simp [beforeSep]
  | cons c t ih =>
    have hc : ¬ c = sep := fun e => h (e ▸ List.mem_cons_self c t)
    have ih2 := ih (fun hm => h (List.mem_cons_of_mem _ hm))
    simp only [beforeSep, List.cons_append, List.takeWhile_cons] at ih2 ⊢
    simp only [ne_eq, decide_not] at ih2 ⊢
    simp [hc, ih2]

theorem afterSep_append (sep : Char) (a b : RStr) (h : sep ∉ a) :
    afterSep sep (a ++ sep :: b) = b := by
  induction a with
  | nil => simp [afterSep]
  | cons c t ih =>
    have hc : ¬ c = sep := fun e => h (e ▸ List.mem_cons_self c t)
    have ih2 := ih (fun hm => h (List.mem_cons_of_mem _ hm))
    simp only [afterSep, List.cons_append, List.dropWhile_cons] at ih2 ⊢
    simp only [ne_eq, decide_not] at ih2 ⊢
    simp [hc, ih2]
theorem splitCRLF_ne_nil (s : RStr) : splitCRLF s ≠ [] := by
  induction s using splitCRLF.induct with
  | case1 => simp [splitCRLF]
  | case2 c => simp [splitCRLF]
  | case3 c1 c2 rest hcond ih =>
    rw [splitCRLF, if_pos hcond]
    simp
  | case4 c1 c2 rest hcond hnil ih =>
    rw [splitCRLF, if_neg hcond, hnil]
    simp
  | case5 c1 c2 rest hcond l ls hs ih =>
    rw [splitCRLF, if_neg hcond, hs]
    simp

theorem crlfJoinAux_nil : crlfJoinAux [] = [] := rfl

theorem crlfJoinAux_cons (l : RStr) (ls : List RStr) :
    crlfJoinAux (l :: ls) = '\r' :: '\n' :: l ++ crlfJoinAux ls := rfl

theorem hasCRLF_cons (c : Char) (s : RStr) (hc : c ≠ '\r') :
    hasCRLF (c :: s) = hasCRLF s := by
  cases s with
  | nil => simp [hasCRLF]
  | cons d t => simp [hasCRLF, hc]

theorem hasCRLF_cons_false (c1 c2 : Char) (s : RStr) :
    hasCRLF (c1 :: c2 :: s) = false → hasCRLF (c2 :: s) = false := by
  intro h
  rw [hasCRLF] at h
  exact (Bool.or_eq_false_iff.mp h).2

theorem splitCRLF_eq_single (s : RStr) (h : hasCRLF s = false) : splitCRLF s = [s] := by
  induction s using splitCRLF.induct with
  | case1 => rfl
  | case2 c => rfl
  | case3 c1 c2 rest hcond ih =>
    obtain ⟨rfl, rfl⟩ := hcond
    simp [hasCRLF] at h
  | case4 c1 c2 rest hcond hnil ih =>
    exact absurd hnil (splitCRLF_ne_nil _)
  | case5 c1 c2 rest hcond l ls hs ih =>
    rw [splitCRLF, if_neg hcond, hs]
    have := ih (hasCRLF_cons_false c1 c2 rest h)
    rw [hs] at this
    injection this with e1 e2
    rw [e1, e2]

theorem splitCRLF_append (a b : RStr) (h : hasCRLF a = false) :
    splitCRLF (a ++ '\r' :: '\n' :: b) = a :: splitCRLF b := by
  induction a using splitCRLF.induct with
  | case1 =>
    rw [List.nil_append, splitCRLF, if_pos ⟨rfl, rfl⟩]
  | case2 c =>
    have hb : splitCRLF ('\r' :: '\n' :: b) = [] :: splitCRLF b := by
      rw [splitCRLF, if_pos ⟨rfl, rfl⟩]
    show splitCRLF (c :: '\r' :: '\n' :: b) = [c] :: splitCRLF b
    rw [splitCRLF, if_neg (fun hx => absurd hx.2 (by decide)), hb]
  | case3 c1 c2 rest hcond ih =>
    obtain ⟨rfl, rfl⟩ := hcond
    simp [hasCRLF] at h
  | case4 c1 c2 rest hcond hnil ih =>
    exact absurd hnil (splitCRLF_ne_nil _)
  | case5 c1 c2 rest hcond l ls hs ih =>
    have ih2 := ih (hasCRLF_cons_false c1 c2 rest h)
    show splitCRLF (c1 :: c2 :: (rest ++ '\r' :: '\n' :: b)) = _
    rw [splitCRLF, if_neg hcond]
    rw [show (c2 :: (rest ++ '\r' :: '\n' :: b) : RStr) = (c2 :: rest) ++ '\r' :: '\n' :: b from rfl]
    rw [ih2]

theorem splitCRLF_reconstruct (s : RStr) :
    ∀ h tl, splitCRLF s = h :: tl → s = h ++ crlfJoinAux tl := by
  induction s using splitCRLF.induct with
  | case1 =>
    intro h tl e
    rw [splitCRLF] at e
    injection e with e1 e2
    subst e1
    subst e2
    rfl
  | case2 c =>
    intro h tl e
    rw [splitCRLF] at e
    injection e with e1 e2
    subst e1
    subst e2
    rfl
  | case3 c1 c2 rest hcond ih =>
    obtain ⟨rfl, rfl⟩ := hcond
    intro h tl e
    rw [splitCRLF, if_pos ⟨rfl, rfl⟩] at e
    cases hs : splitCRLF rest with
    | nil => exact absurd hs (splitCRLF_ne_nil rest)
    | cons l ls =>
      rw [hs] at e
      injection e with e1 e2
      subst e1
      subst e2
      have hr := ih l ls hs
      simp [crlfJoinAux_cons, hr]
  | case4 c1 c2 rest hcond hnil ih =>
    exact absurd hnil (splitCRLF_ne_nil _)
  | case5 c1 c2 rest hcond l ls hs ih =>
    intro h tl e
    rw [splitCRLF, if_neg hcond, hs] at e
    injection e with e1 e2
    subst e1
    subst e2
    have hr := ih l ls hs
    rw [List.cons_append, ← hr]

theorem foldl_crlfJoinAux (ls : List RStr) (r : RStr) :
    ls.foldl (fun res s => res ++ '\r' :: '\n' :: s) r = r ++ crlfJoinAux ls := by
  induction ls generalizing r with
  | nil => simp [crlfJoinAux]
  | cons l ls ih => simp [crlfJoinAux_cons, ih]

theorem splitCRLF_foldl (s init : RStr) (more : List RStr)
    (h : splitCRLF s = init :: more) :
    more.foldl (fun res t => res ++ '\r' :: '\n' :: t) init = s := by
  rw [foldl_crlfJoinAux]
  exact (splitCRLF_reconstruct s init more h).symm

theorem hasCRLF_append_cons (a b : RStr) (c : Char) (ha : hasCRLF a = false)
    (hb : hasCRLF b = false) (hc1 : c ≠ '\r') (hc2 : c ≠ '\n') :
    hasCRLF (a ++ c :: b) = false := by
  induction a with
  | nil =>
    rw [List.nil_append, hasCRLF_cons c b hc1]
    exact hb
  | cons x t ih =>
    cases t with
    | nil =>
      show hasCRLF (x :: c :: b) = false
      rw [hasCRLF]
      have h1 : (x = '\r' && c = '\n') = false := by
        simp [hc2]
      rw [h1, hasCRLF_cons c b hc1]
      simp [hb]
    | cons y t2 =>
      show hasCRLF (x :: y :: (t2 ++ c :: b)) = false
      rw [hasCRLF]
      rw [hasCRLF] at ha
      obtain ⟨ha1, ha2⟩ := Bool.or_eq_false_iff.mp ha
      rw [ha1]
      simp only [Bool.false_or]
      exact ih ha2

theorem hasCRLF_of_no_cr (s : RStr) (h : ∀ x ∈ s, x ≠ '\r') : hasCRLF s = false := by
  induction s with
  | nil => rfl
  | cons c t ih =>
    have hc : c ≠ '\r' := h c (List.mem_cons_self c t)
    rw [hasCRLF_cons c t hc]
    exact ih (fun x hx => h x (List.mem_cons_of_mem _ hx))
theorem length_dropWhile_le (p : Char → Bool) (l : RStr) :
    (l.dropWhile p).length ≤ l.length := by
  induction l with
  | nil => simp
  | cons c t ih =>
    rw [List.dropWhile_cons]
    split_ifs
    · exact Nat.le_trans ih (Nat.le_succ _)
    · exact Nat.le_refl _

theorem dropWhile_length_eq (p : Char → Bool) (l : RStr)
    (h : (l.dropWhile p).length = l.length) : l.dropWhile p = l := by
  cases l with
  | nil => rfl
  | cons c t =>
    rw [List.dropWhile_cons] at h ⊢
    split_ifs at h ⊢ with hp
    · exact absurd h (Nat.ne_of_lt (Nat.lt_succ_of_le (length_dropWhile_le p t)))
    · rfl

theorem rustTrimLeft_eq_self (s : RStr)
    (h : ∀ c, s.head? = some c → isRustWhitespace c = false) : rustTrimLeft s = s := by
  cases s with
  | nil => rfl
  | cons c t =>
    unfold rustTrimLeft
    rw [List.dropWhile_cons, if_neg]
    rw [h c rfl]
    simp

theorem rustTrimRight_eq_self (s : RStr)
    (h : ∀ c, s.getLast? = some c → isRustWhitespace c = false) : rustTrimRight s = s := by
  unfold rustTrimRight
  have : s.reverse.dropWhile isRustWhitespace = s.reverse := by
    apply rustTrimLeft_eq_self
    intro c hc
    exact h c ((List.head?_reverse s) ▸ hc)
  rw [this, List.reverse_reverse]

theorem rustTrim_eq_self (s : RStr)
    (h1 : ∀ c, s.head? = some c → isRustWhitespace c = false)
    (h2 : ∀ c, s.getLast? = some c → isRustWhitespace c = false) : rustTrim s = s := by
  unfold rustTrim
  rw [rustTrimLeft_eq_self s h1, rustTrimRight_eq_self s h2]

theorem rustTrimLeft_of_trim_eq_self (s : RStr) (h : rustTrim s = s) :
    rustTrimLeft s = s := by
  have hlen1 : (rustTrimLeft s).length ≤ s.length := length_dropWhile_le _ s
  have hlen2 : (rustTrim s).length ≤ (rustTrimLeft s).length := by
    unfold rustTrim rustTrimRight
    rw [List.length_reverse]
    exact Nat.le_trans (length_dropWhile_le _ _) (by rw [List.length_reverse])
  rw [h] at hlen2
  exact dropWhile_length_eq _ s (Nat.le_antisymm hlen1 hlen2 ▸ rfl)

theorem rustTrimRight_of_trim_eq_self (s : RStr) (h : rustTrim s = s) :
    rustTrimRight s = s := by
  have := rustTrimLeft_of_trim_eq_self s h
  unfold rustTrim at h
  rw [this] at h
  exact h

theorem head_not_ws_of_trim_eq_self (s : RStr) (h : rustTrim s = s) :
    ∀ c, s.head? = some c → isRustWhitespace c = false := by
  intro c hc
  have hl := rustTrimLeft_of_trim_eq_self s h
  cases s with
  | nil => simp at hc
  | cons x t =>
    injection hc with hc
    subst hc
    unfold rustTrimLeft at hl
    rw [List.dropWhile_cons] at hl
    by_contra hw
    rw [if_pos (by simpa using hw)] at hl
    have := length_dropWhile_le isRustWhitespace t
    rw [hl] at this
    simp at this

theorem getLast_not_ws_of_trim_eq_self (s : RStr) (h : rustTrim s = s) :
    ∀ c, s.getLast? = some c → isRustWhitespace c = false := by
  intro c hc
  have hr := rustTrimRight_of_trim_eq_self s h
  unfold rustTrimRight at hr
  have hrev : s.reverse.dropWhile isRustWhitespace = s.reverse := by
    rw [← List.reverse_inj, hr, List.reverse_reverse]
  have : s.reverse.head? = some c := (List.head?_reverse s).symm ▸ hc
  have htrim : rustTrim s.reverse = s.reverse := by
    unfold rustTrim rustTrimLeft
    rw [hrev]
    apply rustTrimRight_eq_self
    intro d hd
    rw [List.getLast?_reverse] at hd
    exact head_not_ws_of_trim_eq_self s h d hd
  exact head_not_ws_of_trim_eq_self s.reverse htrim c this

theorem rustTrim_cons_ws (c : Char) (s : RStr) (h : isRustWhitespace c = true) :
    rustTrim (c :: s) = rustTrim s := by
  unfold rustTrim rustTrimLeft
  rw [List.dropWhile_cons, if_pos h]

theorem rustTrim_nil : rustTrim [] = [] := rfl

theorem head?_append_left (v r : RStr) (h : v ≠ []) : (v ++ r).head? = v.head? := by
  cases v with
  | nil => exact absurd rfl h
  | cons c t => rfl

theorem getLast?_append_right (v r : RStr) (h : r ≠ []) : (v ++ r).getLast? = r.getLast? := by
  rw [List.getLast?_append]
  cases hr : r.getLast? with
  | none =>
    cases r with
    | nil => exact absurd rfl h
    | cons c t => rw [List.getLast?_eq_getLast _ (by simp)] at hr; simp at hr
  | some c => rfl

theorem mem_of_head? (s : RStr) (c : Char) (h : s.head? = some c) : c ∈ s := by
  cases s with
  | nil => simp at h
  | cons x t =>
    injection h with h
    subst h
    exact List.mem_cons_self _ _

theorem mem_of_getLast? (s : RStr) (c : Char) (h : s.getLast? = some c) : c ∈ s := by
  have : c ∈ s.reverse := mem_of_head? s.reverse c ((List.head?_reverse s).symm ▸ h)
  simpa using this

theorem rustTrim_eq_self_of_no_ws (s : RStr)
    (h : ∀ c ∈ s, isRustWhitespace c = false) : rustTrim s = s :=
  rustTrim_eq_self s (fun c hc => h c (mem_of_head? s c hc))
    (fun c hc => h c (mem_of_getLast? s c hc))
theorem digitChar_toNat (n : Nat) : (digitChar n).toNat = 48 + n % 10 := by
  have h : n % 10 < 10 := Nat.mod_lt _ (by omega)
  unfold digitChar
  set m := n % 10 with hm
  interval_cases m <;> decide

theorem natDigitsAux_shift :
    ∀ n fuel acc, n < fuel → natDigitsAux fuel n acc = natDigits n ++ acc := by
  intro n
  induction n using Nat.strong_induction_on with
  | _ n ih =>
    intro fuel acc hfuel
    cases fuel with
    | zero => omega
    | succ f =>
      rw [natDigitsAux]
      by_cases h10 : n < 10
      · rw [if_pos h10]
        have : natDigits n = [digitChar n] := by
          unfold natDigits
          rw [natDigitsAux, if_pos h10]
        rw [this]
        rfl
      · rw [if_neg h10]
        have hdiv : n / 10 < n := Nat.div_lt_self (by omega) (by omega)
        have hrhs : natDigits n = natDigits (n / 10) ++ [digitChar (n % 10)] := by
          unfold natDigits
          rw [natDigitsAux, if_neg h10]
          exact ih (n / 10) hdiv n [digitChar (n % 10)] hdiv
        rw [hrhs, ih (n / 10) hdiv f (digitChar (n % 10) :: acc) (by omega)]
        simp

theorem natDigits_eq (n : Nat) :
    natDigits n = if n < 10 then [digitChar n] else natDigits (n / 10) ++ [digitChar (n % 10)] := by
  unfold natDigits
  rw [natDigitsAux]
  by_cases h10 : n < 10
  · rw [if_pos h10, if_pos h10]
  · rw [if_neg h10, if_neg h10]
    exact natDigitsAux_shift (n / 10) n [digitChar (n % 10)]
      (Nat.div_lt_self (by omega) (by omega))

theorem natDigits_all_digit (n : Nat) :
    ∀ c ∈ natDigits n, 48 ≤ c.toNat ∧ c.toNat ≤ 57 := by
  induction n using Nat.strong_induction_on with
  | _ n ih =>
    intro c hc
    rw [natDigits_eq] at hc
    by_cases h10 : n < 10
    · rw [if_pos h10] at hc
      rcases List.mem_singleton.mp hc with rfl
      rw [digitChar_toNat]
      omega
    · rw [if_neg h10] at hc
      rcases List.mem_append.mp hc with hc | hc
      · exact ih (n / 10) (Nat.div_lt_self (by omega) (by omega)) c hc
      · rcases List.mem_singleton.mp hc with rfl
        rw [digitChar_toNat]
        omega

theorem natDigits_ne_nil (n : Nat) : natDigits n ≠ [] := by
  rw [natDigits_eq]
  split_ifs <;> simp

theorem natDigits_foldl (n : Nat) :
    (natDigits n).foldl (fun a c => a * 10 + (c.toNat - 48)) 0 = n := by
  induction n using Nat.strong_induction_on with
  | _ n ih =>
    rw [natDigits_eq]
    by_cases h10 : n < 10
    · rw [if_pos h10]
      simp [digitChar_toNat]
      omega
    · rw [if_neg h10]
      rw [List.foldl_append]
      rw [ih (n / 10) (Nat.div_lt_self (by omega) (by omega))]
      simp [digitChar_toNat]
      omega

theorem natDigits_all_digitChar (n : Nat) : (natDigits n).all isDigitChar = true := by
  rw [List.all_eq_true]
  intro c hc
  have := natDigits_all_digit n c hc
  simp [isDigitChar]
  omega

theorem parseU32_natDigits (n : Nat) (h : n < 4294967296) :
    parseU32 (natDigits n) = some n := by
  unfold parseU32
  have hplus : (natDigits n).head? ≠ some '+' := by
    cases hd : natDigits n with
    | nil => exact absurd hd (natDigits_ne_nil n)
    | cons c cs =>
      have hcm : c ∈ natDigits n := hd ▸ List.mem_cons_self c cs
      have := natDigits_all_digit n c hcm
      simp only [List.head?_cons]
      intro he
      injection he with he
      rw [he] at this
      simp at this
  rw [if_neg hplus]
  rw [if_pos ⟨natDigits_ne_nil n, natDigits_all_digitChar n⟩]
  rw [natDigits_foldl n, if_pos h]

theorem natDigits_no_ws (n : Nat) : ∀ c ∈ natDigits n, isRustWhitespace c = false := by
  intro c hc
  have := natDigits_all_digit n c hc
  simp [isRustWhitespace]
  omega

theorem natDigits_trim (n : Nat) : rustTrim (natDigits n) = natDigits n :=
  rustTrim_eq_self_of_no_ws _ (natDigits_no_ws n)

theorem natDigits_no_space (n : Nat) : ' ' ∉ natDigits n := by
  intro hc
  have := natDigits_all_digit n ' ' hc
  simp at this

theorem natDigits_no_quote (n : Nat) : quoteChar ∉ natDigits n := by
  intro hc
  have := natDigits_all_digit n quoteChar hc
  simp [quoteChar] at this

theorem natDigits_no_crlf (n : Nat) : hasCRLF (natDigits n) = false := by
  apply hasCRLF_of_no_cr
  intro c hc
  have := natDigits_all_digit n c hc
  intro he
  rw [he] at this
  simp at this
theorem headerStr_ne_nil (h : HeaderField) : headerStr h ≠ [] := by
  unfold headerStr
  cases hn : h.name <;> simp

theorem headerStr_no_crlf (hf : HeaderField) (h : wfHeader hf) :
    hasCRLF (headerStr hf) = false := by
  obtain ⟨h1, h2, h3, h4, h5⟩ := h
  unfold headerStr
  apply hasCRLF_append_cons hf.name (' ' :: hf.value) ':' h3 _ (by decide) (by decide)
  rw [hasCRLF_cons ' ' _ (by decide)]
  exact h5

theorem headerField_fromStr_headerStr (hf : HeaderField) (h : wfHeader hf) :
    HeaderField.fromStr (headerStr hf) = .ok hf := by
  obtain ⟨h1, h2, h3, h4, h5⟩ := h
  cases hs2 : splitChar ':' (' ' :: hf.value) with
  | nil => exact absurd hs2 (splitChar_ne_nil _ _)
  | cons p1 rest =>
    have hsp : splitChar ':' (headerStr hf) = hf.name :: p1 :: rest := by
      rw [show headerStr hf = hf.name ++ ':' :: (' ' :: hf.value) from rfl]
      rw [splitChar_append ':' _ _ h1, hs2]
    unfold HeaderField.fromStr
    rw [hsp]
    dsimp only
    have hv : rest.foldl (fun res s => res ++ ':' :: s) p1 = ' ' :: hf.value := by
      rw [foldl_joinAux]
      exact (splitChar_reconstruct ':' (' ' :: hf.value) p1 rest hs2).symm
    rw [h2, hv, rustTrim_cons_ws ' ' _ (by decide), h4]

theorem parseHeaders_length : ∀ ls hfs, parseHeaders ls = .ok hfs → hfs.length = ls.length := by
  intro ls
  induction ls with
  | nil =>
    intro hfs h
    unfold parseHeaders at h
    injection h with h
    subst h
    rfl
  | cons l ls ih =>
    intro hfs h
    unfold parseHeaders at h
    cases hhf : HeaderField.fromStr l with
    | ok hf =>
      rw [hhf] at h
      cases hp : parseHeaders ls with
      | ok hfs2 =>
        rw [hp] at h
        injection h with h
        rw [← h]
        simp [ih hfs2 hp]
      | err e =>
        rw [hp] at h
        exact Outcome.noConfusion h
      | panicked =>
        rw [hp] at h
        exact Outcome.noConfusion h
    | err e =>
      rw [hhf] at h
      exact Outcome.noConfusion h
    | panicked =>
      rw [hhf] at h
      exact Outcome.noConfusion h

theorem parseHeaders_map (hfs : List HeaderField) (h : ∀ hf ∈ hfs, wfHeader hf) :
    parseHeaders (hfs.map headerStr) = .ok hfs := by
  induction hfs with
  | nil => rfl
  | cons hf hfs ih =>
    simp only [List.map_cons]
    unfold parseHeaders
    rw [headerField_fromStr_headerStr hf (h hf (List.mem_cons_self hf hfs))]
    rw [ih (fun x hx => h x (List.mem_cons_of_mem _ hx))]

theorem takeWhile_ne_nil_append (A B : List RStr) (h : ∀ x ∈ A, x ≠ []) :
    (A ++ [] :: B).takeWhile (· ≠ []) = A := by
  induction A with
  | nil => simp
  | cons a A ih =>
    rw [List.cons_append, List.takeWhile_cons]
    have ha : a ≠ [] := h a (List.mem_cons_self a A)
    have ih2 := ih (fun x hx => h x (List.mem_cons_of_mem _ hx))
    simp only [ne_eq, decide_not] at ih2 ⊢
    simp [ha, ih2]

theorem drop_append_cons_length (A : List RStr) (x : RStr) (B : List RStr) :
    (A ++ x :: B).drop (A.length + 1) = B := by
  rw [← List.drop_drop, List.drop_left, List.drop_one]
  rfl

theorem drop_length_takeWhile (p : RStr → Bool) (l : List RStr) :
    l.drop (l.takeWhile p).length = l.dropWhile p := by
  induction l with
  | nil => rfl
  | cons a l ih =>
    rw [List.takeWhile_cons, List.dropWhile_cons]
    by_cases hp : p a
    · simp only [if_pos hp, List.length_cons]
      rw [List.drop_succ_cons]
      exact ih
    · simp [hp]
theorem getLast?_cons_of_ne_nil (c : Char) (l : RStr) (h : l ≠ []) :
    (c :: l).getLast? = l.getLast? :=
  getLast?_append_right [c] l h

theorem startLine_fromStr_status (v : RStr) (c : Nat) (r : Option RStr)
    (h : wfStartLine (.statusLine v c r)) :
    StartLine.fromStr (startLineStr (.statusLine v c r)) = .ok (.statusLine v c r) := by
  obtain ⟨⟨hv1, hv2, hv3, hv4, hv5, hv6⟩, hvm, hc, hr⟩ := h
  cases r with
  | none =>
    have hnd := natDigits_ne_nil c
    have hline : startLineStr (StartLine.statusLine v c none) = v ++ ' ' :: natDigits c := by
      show v ++ ' ' :: (natDigits c ++ []) = _
      rw [List.append_nil]
    have hHead : ∀ x, (v ++ ' ' :: natDigits c).head? = some x → isRustWhitespace x = false := by
      intro x hx
      rw [head?_append_left v _ hv1] at hx
      exact head_not_ws_of_trim_eq_self v hv2 x hx
    have hLast : ∀ x, (v ++ ' ' :: natDigits c).getLast? = some x → isRustWhitespace x = false := by
      intro x hx
      rw [getLast?_append_right v _ (by simp)] at hx
      rw [getLast?_cons_of_ne_nil ' ' _ hnd] at hx
      exact natDigits_no_ws c x (mem_of_getLast? _ x hx)
    have htrim : rustTrim (v ++ ' ' :: natDigits c) = v ++ ' ' :: natDigits c :=
      rustTrim_eq_self _ hHead hLast
    have hq : quoteChar ∉ v ++ ' ' :: natDigits c := by
      intro hmem
      rcases List.mem_append.mp hmem with hm | hm
      · exact hv5 hm
      · rcases List.mem_cons.mp hm with he | hm
        · exact absurd he (by decide)
        · exact natDigits_no_quote c hm
    have htok : startTokens (v ++ ' ' :: natDigits c) = [v, natDigits c] := by
      unfold startTokens
      rw [htrim, splitChar_of_not_mem _ _ hq]
      rw [if_neg (by simp)]
      rw [splitChar_append ' ' v _ hv4]
      rw [splitChar_of_not_mem ' ' _ (natDigits_no_space c)]
    rw [hline]
    unfold StartLine.fromStr
    rw [htok]
    dsimp only
    rw [hv2, hv3, if_neg hvm]
    rw [natDigits_trim c, parseU32_natDigits c hc]
    simp [rustTrim, rustTrimLeft, rustTrimRight]
  | some rs =>
    obtain ⟨hr1, hr2, hr3, hr4⟩ := hr
    have hnd := natDigits_ne_nil c
    have hline : startLineStr (StartLine.statusLine v c (some rs)) =
        v ++ ' ' :: (natDigits c ++ ' ' :: rs) := rfl
    have hHead : ∀ x, (v ++ ' ' :: (natDigits c ++ ' ' :: rs)).head? = some x →
        isRustWhitespace x = false := by
      intro x hx
      rw [head?_append_left v _ hv1] at hx
      exact head_not_ws_of_trim_eq_self v hv2 x hx
    have hLast : ∀ x, (v ++ ' ' :: (natDigits c ++ ' ' :: rs)).getLast? = some x →
        isRustWhitespace x = false := by
      intro x hx
      rw [getLast?_append_right v _ (by simp)] at hx
      rw [getLast?_cons_of_ne_nil ' ' _ (by simp)] at hx
      rw [getLast?_append_right _ _ (by simp)] at hx
      rw [getLast?_cons_of_ne_nil ' ' _ hr1] at hx
      exact getLast_not_ws_of_trim_eq_self rs hr2 x hx
    have htrim : rustTrim (v ++ ' ' :: (natDigits c ++ ' ' :: rs)) =
        v ++ ' ' :: (natDigits c ++ ' ' :: rs) :=
      rustTrim_eq_self _ hHead hLast
    have hq : quoteChar ∉ v ++ ' ' :: (natDigits c ++ ' ' :: rs) := by
      intro hmem
      rcases List.mem_append.mp hmem with hm | hm
      · exact hv5 hm
      · rcases List.mem_cons.mp hm with he | hm
        · exact absurd he (by decide)
        · rcases List.mem_append.mp hm with hm | hm
          · exact natDigits_no_quote c hm
          · rcases List.mem_cons.mp hm with he | hm
            · exact absurd he (by decide)
            · exact hr3 hm
    have htok : startTokens (v ++ ' ' :: (natDigits c ++ ' ' :: rs)) =
        v :: natDigits c :: splitChar ' ' rs := by
      unfold startTokens
      rw [htrim, splitChar_of_not_mem _ _ hq]
      rw [if_neg (by simp)]
      rw [splitChar_append ' ' v _ hv4]
      rw [splitChar_append ' ' _ _ (natDigits_no_space c)]
    rw [hline]
    unfold StartLine.fromStr
    rw [htok]
    dsimp only
    rw [hv2, hv3, if_neg hvm]
    rw [natDigits_trim c, parseU32_natDigits c hc]
    dsimp only
    rw [foldl_splitChar_nil ' ' rs]
    rw [rustTrim_cons_ws ' ' rs (by decide), hr2]
    rw [if_neg hr1]
theorem startLine_fromStr_request (m t v : RStr)
    (h : wfStartLine (.requestLine m t v)) :
    StartLine.fromStr (startLineStr (.requestLine m t v)) = .ok (.requestLine m t v) := by
  obtain ⟨hm, ht2, ht3, ht4, hv1, hv2, hv3, hv4, hv5, hv6⟩ := h
  have hmG : m = toRStr "GET" := by
    simpa [HTTP_METHOD] using hm
  subst hmG
  by_cases hts : ' ' ∈ t
  · -- quoted-target branch
    have hline : startLineStr (StartLine.requestLine (toRStr "GET") t v) =
        (toRStr "GET" ++ [' ']) ++ quoteChar :: (t ++ quoteChar :: (' ' :: v)) := by
      show toRStr "GET" ++ ' ' :: ((if ' ' ∈ t then quoteChar :: t ++ [quoteChar] else t) ++ ' ' :: v) = _
      rw [if_pos hts]
      simp
    have hHead : ∀ x, ((toRStr "GET" ++ [' ']) ++ quoteChar :: (t ++ quoteChar :: (' ' :: v))).head? = some x →
        isRustWhitespace x = false := by
      intro x hx
      rw [head?_append_left _ _ (by decide)] at hx
      rw [head?_append_left _ _ (by decide)] at hx
      rw [show (toRStr "GET").head? = some 'G' from rfl] at hx
      injection hx with hx
      subst hx
      decide
    have hLast : ∀ x, ((toRStr "GET" ++ [' ']) ++ quoteChar :: (t ++ quoteChar :: (' ' :: v))).getLast? = some x →
        isRustWhitespace x = false := by
      intro x hx
      rw [getLast?_append_right _ _ (by simp)] at hx
      rw [getLast?_cons_of_ne_nil _ _ (by simp)] at hx
      rw [getLast?_append_right _ _ (by simp)] at hx
      rw [getLast?_cons_of_ne_nil _ _ (by simp)] at hx
      rw [getLast?_cons_of_ne_nil _ _ hv1] at hx
      exact getLast_not_ws_of_trim_eq_self v hv2 x hx
    have htrim : rustTrim ((toRStr "GET" ++ [' ']) ++ quoteChar :: (t ++ quoteChar :: (' ' :: v))) =
        (toRStr "GET" ++ [' ']) ++ quoteChar :: (t ++ quoteChar :: (' ' :: v)) :=
      rustTrim_eq_self _ hHead hLast
    have hq1 : quoteChar ∉ toRStr "GET" ++ [' '] := by decide
    have hq3 : quoteChar ∉ ' ' :: v := by
      intro hmem
      rcases List.mem_cons.mp hmem with he | hmem
      · exact absurd he (by decide)
      · exact hv5 hmem
    have hqsplit : splitChar quoteChar
        ((toRStr "GET" ++ [' ']) ++ quoteChar :: (t ++ quoteChar :: (' ' :: v))) =
        [toRStr "GET" ++ [' '], t, ' ' :: v] := by
      rw [splitChar_append quoteChar _ _ hq1]
      rw [splitChar_append quoteChar _ _ ht3]
      rw [splitChar_of_not_mem quoteChar _ hq3]
    have htok : startTokens ((toRStr "GET" ++ [' ']) ++ quoteChar :: (t ++ quoteChar :: (' ' :: v))) =
        [toRStr "GET" ++ [' '], t, ' ' :: v] := by
      unfold startTokens
      rw [htrim, hqsplit]
      have hlen : ([toRStr "GET" ++ [' '], t, ' ' :: v] : List RStr).length = 3 := rfl
      rw [if_pos hlen]
    rw [hline]
    unfold StartLine.fromStr
    rw [htok]
    dsimp only
    rw [show rustTrim (toRStr "GET" ++ [' ']) = toRStr "GET" from by decide]
    rw [show toUpperStr (toRStr "GET") = toRStr "GET" from by decide]
    rw [if_pos (by simp [HTTP_METHOD])]
    rw [ht2]
    rw [rustTrim_cons_ws ' ' v (by decide), hv2, hv3]
  · -- plain-target branch
    have hline : startLineStr (StartLine.requestLine (toRStr "GET") t v) =
        toRStr "GET" ++ ' ' :: (t ++ ' ' :: v) := by
      show toRStr "GET" ++ ' ' :: ((if ' ' ∈ t then quoteChar :: t ++ [quoteChar] else t) ++ ' ' :: v) = _
      rw [if_neg hts]
    have hHead : ∀ x, (toRStr "GET" ++ ' ' :: (t ++ ' ' :: v)).head? = some x →
        isRustWhitespace x = false := by
      intro x hx
      rw [head?_append_left _ _ (by decide)] at hx
      rw [show (toRStr "GET").head? = some 'G' from rfl] at hx
      injection hx with hx
      subst hx
      decide
    have hLast : ∀ x, (toRStr "GET" ++ ' ' :: (t ++ ' ' :: v)).getLast? = some x →
        isRustWhitespace x = false := by
      intro x hx
      rw [getLast?_append_right _ _ (by simp)] at hx
      rw [getLast?_cons_of_ne_nil _ _ (by simp)] at hx
      rw [getLast?_append_right _ _ (by simp)] at hx
      rw [getLast?_cons_of_ne_nil _ _ hv1] at hx
      exact getLast_not_ws_of_trim_eq_self v hv2 x hx
    have htrim : rustTrim (toRStr "GET" ++ ' ' :: (t ++ ' ' :: v)) =
        toRStr "GET" ++ ' ' :: (t ++ ' ' :: v) :=
      rustTrim_eq_self _ hHead hLast
    have hq : quoteChar ∉ toRStr "GET" ++ ' ' :: (t ++ ' ' :: v) := by
      intro hmem
      rcases List.mem_append.mp hmem with hmem | hmem
      · revert hmem
        decide
      · rcases List.mem_cons.mp hmem with he | hmem
        · exact absurd he (by decide)
        · rcases List.mem_append.mp hmem with hmem | hmem
          · exact ht3 hmem
          · rcases List.mem_cons.mp hmem with he | hmem
            · exact absurd he (by decide)
            · exact hv5 hmem
    have hssplit : splitChar ' ' (toRStr "GET" ++ ' ' :: (t ++ ' ' :: v)) =
        [toRStr "GET", t, v] := by
      rw [splitChar_append ' ' _ _ (by decide)]
      rw [splitChar_append ' ' _ _ hts]
      rw [splitChar_of_not_mem ' ' _ hv4]
    have htok : startTokens (toRStr "GET" ++ ' ' :: (t ++ ' ' :: v)) =
        [toRStr "GET", t, v] := by
      unfold startTokens
      rw [htrim, splitChar_of_not_mem _ _ hq]
      rw [if_neg (by simp)]
      exact hssplit
    rw [hline]
    unfold StartLine.fromStr
    rw [htok]
    dsimp only
    rw [show rustTrim (toRStr "GET") = toRStr "GET" from by decide]
    rw [show toUpperStr (toRStr "GET") = toRStr "GET" from by decide]
    rw [if_pos (by simp [HTTP_METHOD])]
    rw [ht2, hv2, hv3]

theorem startLineStr_no_crlf (sl : StartLine) (h : wfStartLine sl) :
    hasCRLF (startLineStr sl) = false := by
  cases sl with
  | requestLine m t v =>
    obtain ⟨hm, ht2, ht3, ht4, hv1, hv2, hv3, hv4, hv5, hv6⟩ := h
    have hmG : m = toRStr "GET" := by
      simpa [HTTP_METHOD] using hm
    subst hmG
    show hasCRLF (toRStr "GET" ++ ' ' :: ((if ' ' ∈ t then quoteChar :: t ++ [quoteChar] else t) ++ ' ' :: v)) = false
    apply hasCRLF_append_cons _ _ _ (by decide) _ (by decide) (by decide)
    apply hasCRLF_append_cons _ _ _ _ hv6 (by decide) (by decide)
    by_cases hts : ' ' ∈ t
    · rw [if_pos hts]
      apply hasCRLF_append_cons (quoteChar :: t) [] quoteChar _ rfl (by decide) (by decide)
      rw [hasCRLF_cons quoteChar t (by decide)]
      exact ht4
    · rw [if_neg hts]
      exact ht4
  | statusLine v c r =>
    obtain ⟨⟨hv1, hv2, hv3, hv4, hv5, hv6⟩, hvm, hc, hr⟩ := h
    cases r with
    | none =>
      show hasCRLF (v ++ ' ' :: (natDigits c ++ [])) = false
      rw [List.append_nil]
      exact hasCRLF_append_cons v _ ' ' hv6 (natDigits_no_crlf c) (by decide) (by decide)
    | some rs =>
      obtain ⟨hr1, hr2, hr3, hr4⟩ := hr
      show hasCRLF (v ++ ' ' :: (natDigits c ++ ' ' :: rs)) = false
      apply hasCRLF_append_cons _ _ _ hv6 _ (by decide) (by decide)
      exact hasCRLF_append_cons _ _ _ (natDigits_no_crlf c) hr4 (by decide) (by decide)
theorem splitCRLF_headers (hfs : List HeaderField) (body : RStr)
    (h : ∀ hf ∈ hfs, wfHeader hf) :
    splitCRLF (hfs.foldr (fun hf acc => headerStr hf ++ '\r' :: '\n' :: acc)
      ('\r' :: '\n' :: body)) = hfs.map headerStr ++ [] :: splitCRLF body := by
  induction hfs with
  | nil =>
    simp only [List.foldr_nil, List.map_nil, List.nil_append]
    rw [splitCRLF, if_pos ⟨rfl, rfl⟩]
  | cons hf hfs ih =>
    simp only [List.foldr_cons, List.map_cons, List.cons_append]
    rw [splitCRLF_append _ _ (headerStr_no_crlf hf (h hf (List.mem_cons_self hf hfs)))]
    rw [ih (fun x hx => h x (List.mem_cons_of_mem _ hx))]

theorem fromStr_to_http_of_wf (m : MessageHTTP) (h : wfMessage m) :
    MessageHTTP.fromStr (MessageHTTP.to_http m) = .ok m := by
  obtain ⟨msl, mhf, mbody⟩ := m
  obtain ⟨hsl, hhf, hbody⟩ := h
  simp only at hsl hhf hbody
  have hlines : splitCRLF (MessageHTTP.to_http ⟨msl, mhf, mbody⟩) =
      startLineStr msl :: (mhf.map headerStr ++ [] :: splitCRLF mbody) := by
    unfold MessageHTTP.to_http
    rw [splitCRLF_append _ _ (startLineStr_no_crlf _ hsl)]
    rw [splitCRLF_headers _ _ hhf]
  have hstart : StartLine.fromStr (startLineStr msl) = .ok msl := by
    cases hsl2 : msl with
    | requestLine a b c => exact startLine_fromStr_request a b c (hsl2 ▸ hsl)
    | statusLine a b c => exact startLine_fromStr_status a b c (hsl2 ▸ hsl)
  unfold MessageHTTP.fromStr
  rw [hlines]
  dsimp only
  rw [hstart]
  dsimp only
  rw [takeWhile_ne_nil_append _ _ (by
    intro x hx
    rcases List.mem_map.mp hx with ⟨hf, hmem, rfl⟩
    exact headerStr_ne_nil hf)]
  rw [parseHeaders_map _ hhf]
  dsimp only
  rw [show mhf.length = (mhf.map headerStr).length from (List.length_map _ _).symm]
  rw [drop_append_cons_length]
  rcases hbody with hb | hb
  · subst hb
    rfl
  · cases hsp : splitCRLF mbody with
    | nil => exact absurd hsp (splitCRLF_ne_nil _)
    | cons init more =>
      rw [hsp] at hb
      simp only [List.headD_cons] at hb
      dsimp only
      rw [if_neg hb]
      rw [splitCRLF_foldl mbody init more hsp]
theorem startTokens_ne_nil (msg : RStr) : startTokens msg ≠ [] := by
  unfold startTokens
  split_ifs
  · exact splitChar_ne_nil _ _
  · exact splitChar_ne_nil _ _

theorem fromStr_no_panic_of_arity (msg : RStr)
    (h2 : 2 ≤ (startTokens msg).length)
    (h3 : toUpperStr (rustTrim ((startTokens msg).headD [])) ∈ HTTP_METHOD →
      3 ≤ (startTokens msg).length) :
    StartLine.fromStr msg ≠ Outcome.panicked := by
  unfold StartLine.fromStr
  cases e : startTokens msg with
  | nil => exact absurd e (startTokens_ne_nil msg)
  | cons p0 rest =>
    rw [e] at h2 h3
    simp only [List.headD_cons] at h3
    dsimp only
    by_cases hm : toUpperStr (rustTrim p0) ∈ HTTP_METHOD
    · rw [if_pos hm]
      have h4 := h3 hm
      cases rest with
      | nil => simp at h4
      | cons p1 rest2 =>
        cases rest2 with
        | nil => simp at h4
        | cons p2 r3 =>
          dsimp only
          intro hcon
          exact Outcome.noConfusion hcon
    · rw [if_neg hm]
      cases rest with
      | nil => simp at h2
      | cons p1 rest2 =>
        dsimp only
        cases hp : parseU32 (rustTrim p1) with
        | some c =>
          dsimp only
          split_ifs <;> (intro hcon; exact Outcome.noConfusion hcon)
        | none =>
          intro hcon
          exact Outcome.noConfusion hcon

theorem headerField_fromStr_spec_aux (msg : RStr) :
    (':' ∈ msg → HeaderField.fromStr msg =
      .ok ⟨rustTrim (beforeSep ':' msg), rustTrim (afterSep ':' msg)⟩) ∧
    (':' ∉ msg → HeaderField.fromStr msg = .err (.malformedHeader msg)) := by
  constructor
  · intro hin
    cases hsp : splitChar ':' msg with
    | nil => exact absurd hsp (splitChar_ne_nil ':' msg)
    | cons p0 rest =>
      cases rest with
      | nil =>
        have hlen := length_splitChar ':' msg
        rw [hsp] at hlen
        simp at hlen
        exact absurd hin (List.count_eq_zero.mp hlen)
      | cons p1 rest2 =>
        unfold HeaderField.fromStr
        rw [hsp]
        dsimp only
        have hrec := splitChar_reconstruct ':' msg _ _ hsp
        rw [joinAux_cons] at hrec
        have hp0 : ':' ∉ p0 :=
          mem_splitChar_not_mem ':' msg p0 (hsp ▸ List.mem_cons_self p0 (p1 :: rest2))
        have hshape : msg = p0 ++ ':' :: (p1 ++ joinAux ':' rest2) := by
          rw [hrec]
          simp
        have hbefore : beforeSep ':' msg = p0 := by
          rw [hshape]
          exact beforeSep_append ':' p0 _ hp0
        have hafter : afterSep ':' msg = p1 ++ joinAux ':' rest2 := by
          rw [hshape]
          exact afterSep_append ':' p0 _ hp0
        rw [hbefore, hafter, foldl_joinAux]
  · intro hno
    have hsp : splitChar ':' msg = [msg] := splitChar_of_not_mem ':' msg hno
    unfold HeaderField.fromStr
    rw [hsp]

theorem spaceJoin_eq_joinAux (l : RStr) (ls : List RStr) :
    spaceJoin (l :: ls) = l ++ joinAux ' ' ls := by
  induction ls generalizing l with
  | nil => simp [spaceJoin, joinAux]
  | cons l2 ls ih =>
    rw [show spaceJoin (l :: l2 :: ls) = l ++ ' ' :: spaceJoin (l2 :: ls) from rfl]
    rw [ih l2, joinAux_cons]
    simp

theorem foldl_space_trim (toks : List RStr) :
    rustTrim (toks.foldl (fun res s => res ++ ' ' :: s) []) = rustTrim (spaceJoin toks) := by
  cases toks with
  | nil => rfl
  | cons l ls =>
    rw [List.foldl_cons]
    rw [show (([] : RStr) ++ ' ' :: l) = ' ' :: l from rfl]
    rw [foldl_joinAux ' ' ls (' ' :: l)]
    rw [show ((' ' :: l : RStr) ++ joinAux ' ' ls) = ' ' :: (l ++ joinAux ' ' ls) from rfl]
    rw [rustTrim_cons_ws ' ' _ (by decide)]
    rw [spaceJoin_eq_joinAux l ls]

theorem statusLine_fromStr_spec_aux (msg p0 p1 : RStr) (rest2 : List RStr)
    (htok : startTokens msg = p0 :: p1 :: rest2)
    (hm : toUpperStr (rustTrim p0) ∉ HTTP_METHOD) :
    StartLine.fromStr msg =
      match parseU32 (rustTrim p1) with
      | some c => .ok (.statusLine (toUpperStr (rustTrim p0)) c (reasonSpec rest2))
      | none => .err (.invalidStatusCode p1) := by
  unfold StartLine.fromStr
  rw [htok]
  dsimp only
  rw [if_neg hm]
  cases hp : parseU32 (rustTrim p1) with
  | none => rfl
  | some c =>
    dsimp only
    rw [foldl_space_trim rest2]
    unfold reasonSpec
    split_ifs with hcond <;> rfl

theorem startTokens_quote_count_aux (msg : RStr) :
    startTokens msg =
      if (rustTrim msg).count quoteChar = 2 then splitChar quoteChar (rustTrim msg)
      else splitChar ' ' (rustTrim msg) := by
  unfold startTokens
  rw [length_splitChar]
  by_cases h : (rustTrim msg).count quoteChar = 2
  · rw [if_pos (by omega), if_pos h]
  · rw [if_neg (by omega), if_neg h]
theorem message_body_spec_aux (msg : RStr) (m : MessageHTTP)
    (h : MessageHTTP.fromStr msg = .ok m) :
    m.message_body = bodySpecAmended ((splitCRLF msg).tail) := by
  unfold MessageHTTP.fromStr at h
  cases e : splitCRLF msg with
  | nil => exact absurd e (splitCRLF_ne_nil msg)
  | cons first rest =>
    rw [e] at h
    dsimp only at h
    cases hs : StartLine.fromStr first with
    | ok sl =>
      rw [hs] at h
      dsimp only at h
      cases hh : parseHeaders (rest.takeWhile (· ≠ [])) with
      | ok hfs =>
        rw [hh] at h
        dsimp only at h
        injection h with h
        subst h
        have hlen : hfs.length = (rest.takeWhile (· ≠ [])).length :=
          parseHeaders_length _ _ hh
        have hdrop : rest.drop (hfs.length + 1) = (rest.dropWhile (· ≠ [])).tail := by
          rw [hlen]
          rw [← List.drop_drop 1 _ rest]
          rw [drop_length_takeWhile, List.drop_one]
        simp only [List.tail_cons]
        unfold bodySpecAmended linesAfterFirstEmpty
        rw [hdrop]
      | err e2 =>
        rw [hh] at h
        exact Outcome.noConfusion h
      | panicked =>
        rw [hh] at h
        exact Outcome.noConfusion h
    | err e2 =>
      rw [hs] at h
      exact Outcome.noConfusion h
    | panicked =>
      rw [hs] at h
      exact Outcome.noConfusion h

theorem message_headers_spec_aux (msg first : RStr) (rest : List RStr) (sl : StartLine)
    (he : splitCRLF msg = first :: rest) (hs : StartLine.fromStr first = .ok sl) :
    (∀ e, parseHeaders (rest.takeWhile (· ≠ [])) = .err e →
      MessageHTTP.fromStr msg = .err e) ∧
    (∀ hfs, parseHeaders (rest.takeWhile (· ≠ [])) = .ok hfs →
      ∃ b, MessageHTTP.fromStr msg = .ok ⟨sl, hfs, b⟩) := by
  constructor
  · intro e2 hp
    unfold MessageHTTP.fromStr
    rw [he]
    dsimp only
    rw [hs]
    dsimp only
    rw [hp]
  · intro hfs hp
    unfold MessageHTTP.fromStr
    rw [he]
    dsimp only
    rw [hs]
    dsimp only
    rw [hp]
    dsimp only
    exact ⟨_, rfl⟩

theorem shutdownLoop_attached (ws : List Nat) (p : WorkerPool)
    (h : p.receiver_attached = true) :
    shutdownLoop ws p =
      ({ p with sender_chan := p.sender_chan ++ List.replicate ws.length PoolMsg.terminate },
        true) := by
  induction ws generalizing p with
  | nil => simp [shutdownLoop]
  | cons w ws ih =>
    have hsend : p.sendMsg PoolMsg.terminate =
        ({ p with sender_chan := p.sender_chan ++ [PoolMsg.terminate] }, true) := by
      unfold WorkerPool.sendMsg
      rw [if_pos h]
    rw [shutdownLoop, hsend]
    dsimp only
    rw [if_pos rfl]
    rw [ih { p with sender_chan := p.sender_chan ++ [PoolMsg.terminate] } h]
    simp [List.replicate_succ]

theorem workerPool_shutdown_spec (p : WorkerPool) (h : p.receiver_attached = true) :
    (p.shutdown).1.sender_chan =
        p.sender_chan ++ List.replicate p.workers.length PoolMsg.terminate ∧
      (p.shutdown).2 = true ∧
      ((p.shutdown).1.shutdown).1.sender_chan =
        p.sender_chan ++ List.replicate (2 * p.workers.length) PoolMsg.terminate := by
  have h1 := shutdownLoop_attached p.workers p h
  unfold WorkerPool.shutdown
  rw [h1]
  dsimp only
  refine ⟨rfl, rfl, ?_⟩
  have h2 := shutdownLoop_attached p.workers
    { p with sender_chan := p.sender_chan ++ List.replicate p.workers.length PoolMsg.terminate }
    h
  rw [h2]
  dsimp only
  rw [List.append_assoc, ← List.replicate_add]
  congr 2
  omega

theorem server_join_twice_spec (s : Server) (r : DriverResult) (h : s.server = some r) :
    ((s.join).2).server = none ∧ ((s.join).2.join).1 = JoinOutcome.panicked ∧
      (s.join).1 ≠ JoinOutcome.panicked := by
  unfold Server.join
  rw [h]
  cases r with
  | completed =>
    dsimp only
    exact ⟨rfl, rfl, fun hc => JoinOutcome.noConfusion hc⟩
  | panicked =>
    dsimp only
    exact ⟨rfl, rfl, fun hc => JoinOutcome.noConfusion hc⟩
/-- Claim C1, counterexample: a trimmed line whose first token is not a
registered method and which has no second token makes `StartLine::from` index
`parts[1]` out of bounds, aborting the program instead of returning the
invalid-status-code error. -/
theorem c1_counterexample_no_second_token :
    StartLine.fromStr (toRStr "FOO") = Outcome.panicked := by decide

/-- Claim C1, amended: `StartLine::from` returns a `StartLine` or a
`ParseError` (never aborts) provided the token split has at least two tokens,
and at least three when the first token names a registered method; with fewer
tokens it aborts. -/
theorem c1_startLine_total_of_arity (msg : RStr)
    (h2 : 2 ≤ (startTokens msg).length)
    (h3 : toUpperStr (rustTrim ((startTokens msg).headD [])) ∈ HTTP_METHOD →
      3 ≤ (startTokens msg).length) :
    StartLine.fromStr msg ≠ Outcome.panicked :=
  fromStr_no_panic_of_arity msg h2 h3

/-- Claim C1, witness at a concrete status line. -/
theorem c1_witness : StartLine.fromStr (toRStr "HTTP/1.1 200 OK") ≠ Outcome.panicked :=
  c1_startLine_total_of_arity (toRStr "HTTP/1.1 200 OK") (by decide) (by decide)

/-- Claim C2: on a live pool (receiver attached) one `shutdown` call enqueues
exactly one termination signal per worker, N in total, and a second call
enqueues N further surplus signals (not idempotent). -/
theorem c2_workerPool_shutdown_signals (p : WorkerPool) (h : p.receiver_attached = true) :
    (p.shutdown).1.sender_chan =
        p.sender_chan ++ List.replicate p.workers.length PoolMsg.terminate ∧
      (p.shutdown).2 = true ∧
      ((p.shutdown).1.shutdown).1.sender_chan =
        p.sender_chan ++ List.replicate (2 * p.workers.length) PoolMsg.terminate :=
  workerPool_shutdown_spec p h

/-- Claim C2, witness at a three-worker pool. -/
theorem c2_witness :
    ((WorkerPool.mk [0, 1, 2] [] true).shutdown).1.sender_chan =
        List.replicate 3 PoolMsg.terminate ∧
      ((WorkerPool.mk [0, 1, 2] [] true).shutdown).2 = true ∧
      (((WorkerPool.mk [0, 1, 2] [] true).shutdown).1.shutdown).1.sender_chan =
        List.replicate 6 PoolMsg.terminate :=
  c2_workerPool_shutdown_signals (WorkerPool.mk [0, 1, 2] [] true) rfl

/-- Claim C3, counterexample: after the terminating empty line the lines are
`["", "xyz"]`, whose CR-LF rejoining is `"\r\nxyz"`, but the parsed body is
empty: the code discards the whole body when its first line is empty. -/
theorem c3_counterexample_body_dropped :
    MessageHTTP.fromStr (toRStr "http/1.1 200\r\n\r\n\r\nxyz") =
        Outcome.ok ⟨.statusLine (toRStr "HTTP/1.1") 200 none, [], []⟩ ∧
      bodySpecClaim ((splitCRLF (toRStr "http/1.1 200\r\n\r\n\r\nxyz")).tail) =
        toRStr "\r\nxyz" := by decide

/-- Claim C3, amended: the body of a successfully parsed message is the lines
strictly after the first empty line rejoined with CR-LF, except that it is
empty whenever the first of those lines is itself empty (in which case the
remaining lines are discarded). -/
theorem c3_message_body_amended (msg : RStr) (m : MessageHTTP)
    (h : MessageHTTP.fromStr msg = .ok m) :
    m.message_body = bodySpecAmended ((splitCRLF msg).tail) :=
  message_body_spec_aux msg m h

/-- Claim C3, witness at a concrete message with a one-line body. -/
theorem c3_witness :
    (MessageHTTP.mk (.statusLine (toRStr "HTTP/1.1") 200 (some (toRStr "OK"))) []
        (toRStr "body")).message_body =
      bodySpecAmended ((splitCRLF (toRStr "http/1.1 200 OK\r\n\r\nbody")).tail) :=
  c3_message_body_amended (toRStr "http/1.1 200 OK\r\n\r\nbody") _ (by decide)

/-- Claim C4: a line with a separator parses into the trimmed text before the
first `:` and the trimmed text after it (later separators preserved); a line
without a separator fails with the malformed-header error. -/
theorem c4_headerField_spec (msg : RStr) :
    (':' ∈ msg → HeaderField.fromStr msg =
      .ok ⟨rustTrim (beforeSep ':' msg), rustTrim (afterSep ':' msg)⟩) ∧
    (':' ∉ msg → HeaderField.fromStr msg = .err (.malformedHeader msg)) :=
  headerField_fromStr_spec_aux msg

/-- Claim C4, witness at the specification's example line and a line without
any separator. -/
theorem c4_witness :
    HeaderField.fromStr (toRStr " a : b:c ") = Outcome.ok ⟨toRStr "a", toRStr "b:c"⟩ ∧
      HeaderField.fromStr (toRStr "nocolon") =
        Outcome.err (.malformedHeader (toRStr "nocolon")) := by
  constructor
  · have h := (c4_headerField_spec (toRStr " a : b:c ")).1 (by decide)
    rw [h]
    decide
  · exact (c4_headerField_spec (toRStr "nocolon")).2 (by decide)

/-- Claim C5, counterexample: the status-line version is the uppercased first
token, not the first token itself. -/
theorem c5_counterexample_version_uppercased :
    StartLine.fromStr (toRStr "http/1.1 204") =
        Outcome.ok (.statusLine (toRStr "HTTP/1.1") 204 none) ∧
      startTokens (toRStr "http/1.1 204") = [toRStr "http/1.1", toRStr "204"] ∧
      toRStr "HTTP/1.1" ≠ toRStr "http/1.1" := by decide

/-- Claim C5, amended: on a line whose (uppercased) first token is not a
registered method and which has a second token, the result is a status line
whose version is the uppercased trimmed first token, whose code is the second
token parsed as an unsigned 32-bit decimal (the invalid-status-code error
otherwise), and whose reason is the remaining tokens joined with single
spaces and trimmed, the empty join meaning an absent reason. -/
theorem c5_statusLine_spec (msg p0 p1 : RStr) (rest2 : List RStr)
    (htok : startTokens msg = p0 :: p1 :: rest2)
    (hm : toUpperStr (rustTrim p0) ∉ HTTP_METHOD) :
    StartLine.fromStr msg =
      match parseU32 (rustTrim p1) with
      | some c => Outcome.ok (.statusLine (toUpperStr (rustTrim p0)) c (reasonSpec rest2))
      | none => Outcome.err (.invalidStatusCode p1) :=
  statusLine_fromStr_spec_aux msg p0 p1 rest2 htok hm

/-- Claim C5, witness at the specification's two examples. -/
theorem c5_witness :
    StartLine.fromStr (toRStr "HTTP/1.1 404 Not Found") =
        Outcome.ok (.statusLine (toRStr "HTTP/1.1") 404 (some (toRStr "Not Found"))) ∧
      StartLine.fromStr (toRStr "HTTP/1.1 204") =
        Outcome.ok (.statusLine (toRStr "HTTP/1.1") 204 none) := by
  constructor
  · have h := c5_statusLine_spec (toRStr "HTTP/1.1 404 Not Found") (toRStr "HTTP/1.1")
      (toRStr "404") [toRStr "Not", toRStr "Found"] (by decide) (by decide)
    rw [h]
    decide
  · have h := c5_statusLine_spec (toRStr "HTTP/1.1 204") (toRStr "HTTP/1.1")
      (toRStr "204") [] (by decide) (by decide)
    rw [h]
    decide

/-- Claim C6, counterexample: `"ab cd \"5\""` parses (quote split, version
`"AB CD"`), but its re-encoding `"AB CD 5\r\n\r\n"` differs from the original
by more than whitespace trimming (quotes dropped, case folded) and no longer
parses to the same message. -/
theorem c6_counterexample_quote_split :
    MessageHTTP.fromStr (toRStr "ab cd \"5\"") =
        Outcome.ok ⟨.statusLine (toRStr "AB CD") 5 none, [], []⟩ ∧
      MessageHTTP.fromStr (MessageHTTP.to_http ⟨.statusLine (toRStr "AB CD") 5 none, [], []⟩) =
        Outcome.err (.invalidStatusCode (toRStr "CD")) := by decide

/-- Claim C6, amended: for every well-formed message (fields trimmed and
single-line, version space- and quote-free, target quote-free, header names
separator-free, body empty or with a non-empty first line) the spec-modelled
re-encoding parses back to the identical message. -/
theorem c6_roundtrip_wf (m : MessageHTTP) (h : wfMessage m) :
    MessageHTTP.fromStr (MessageHTTP.to_http m) = Outcome.ok m :=
  fromStr_to_http_of_wf m h

/-- Claim C6, witness: a request with two header fields and a two-line body
round-trips. -/
theorem c6_witness :
    MessageHTTP.fromStr (MessageHTTP.to_http
        ⟨.requestLine (toRStr "GET") (toRStr "/") (toRStr "HTTP/1.1"),
          [⟨toRStr "name", toRStr "value"⟩, ⟨toRStr "taste", toRStr "smell"⟩],
          toRStr "line one\r\nline two"⟩) =
      Outcome.ok
        ⟨.requestLine (toRStr "GET") (toRStr "/") (toRStr "HTTP/1.1"),
          [⟨toRStr "name", toRStr "value"⟩, ⟨toRStr "taste", toRStr "smell"⟩],
          toRStr "line one\r\nline two"⟩ :=
  c6_roundtrip_wf _ (by decide)

/-- Claim C7, counterexample: on `"\"5\" 7"` the quote split has an empty
first segment, yet the code still splits on quotes (the claim would demand a
space split), and the difference is observable in the parse result. -/
theorem c7_counterexample_empty_segment :
    claimTokens (toRStr "\"5\" 7") ≠ startTokens (toRStr "\"5\" 7") ∧
      startTokens (toRStr "\"5\" 7") = [[], toRStr "5", toRStr " 7"] ∧
      StartLine.fromStr (toRStr "\"5\" 7") =
        Outcome.ok (.statusLine [] 5 (some (toRStr "7"))) := by decide

/-- Claim C7, amended: the parser splits the trimmed line on quotes exactly
when the trimmed line contains exactly two quote characters (equivalently the
quote split has exactly three segments, empty segments allowed), and otherwise
splits on single spaces. -/
theorem c7_startTokens_quote_count (msg : RStr) :
    startTokens msg =
      if (rustTrim msg).count quoteChar = 2 then splitChar quoteChar (rustTrim msg)
      else splitChar ' ' (rustTrim msg) :=
  startTokens_quote_count_aux msg

/-- Claim C8: once the start line has parsed, the lines before the first empty
line are parsed as header fields; the first header error aborts the whole
parse with that error (no partial message), and on success the parsed fields
are exactly the message's header fields. -/
theorem c8_headers_spec (msg first : RStr) (rest : List RStr) (sl : StartLine)
    (he : splitCRLF msg = first :: rest) (hs : StartLine.fromStr first = Outcome.ok sl) :
    (∀ e, parseHeaders (rest.takeWhile (· ≠ [])) = .err e →
      MessageHTTP.fromStr msg = .err e) ∧
    (∀ hfs, parseHeaders (rest.takeWhile (· ≠ [])) = .ok hfs →
      ∃ b, MessageHTTP.fromStr msg = .ok ⟨sl, hfs, b⟩) :=
  message_headers_spec_aux msg first rest sl he hs

/-- Claim C8, witness: a malformed header line aborts the whole message parse
with that header's error. -/
theorem c8_witness :
    MessageHTTP.fromStr (toRStr "http/1.1 200\r\nbad\r\n\r\n") =
      Outcome.err (.malformedHeader (toRStr "bad")) := by
  have h := (c8_headers_spec (toRStr "http/1.1 200\r\nbad\r\n\r\n") (toRStr "http/1.1 200")
    [toRStr "bad", [], []] (.statusLine (toRStr "HTTP/1.1") 200 none)
    (by decide) (by decide)).1
  exact h (.malformedHeader (toRStr "bad")) (by decide)

/-- Claim C9: the empty input does not fail with the no-start-line error; the
line split yields the single empty line, which is fed to `StartLine::from`
and aborts the program (out-of-bounds `parts[1]`). -/
theorem c9_empty_input_panics : MessageHTTP.fromStr [] = Outcome.panicked := by decide

/-- Claim C10: `Server::join` removes the stored driver handle, so a second
call unwraps `None` and panics, while the first call returns a result. -/
theorem c10_join_twice_panics (s : Server) (r : DriverResult) (h : s.server = some r) :
    ((s.join).2).server = none ∧ ((s.join).2.join).1 = JoinOutcome.panicked ∧
      (s.join).1 ≠ JoinOutcome.panicked :=
  server_join_twice_spec s r h

/-- Claim C10, witness at a server whose driver completed normally. -/
theorem c10_witness :
    ((Server.join ⟨some .completed, true⟩).2).server = none ∧
      (((Server.join ⟨some .completed, true⟩).2).join).1 = JoinOutcome.panicked ∧
      (Server.join ⟨some .completed, true⟩).1 ≠ JoinOutcome.panicked :=
  c10_join_twice_panics ⟨some .completed, true⟩ .completed rfl
